import Mathlib

/-!
Verification of the lineage-hierarchy generation script
(`scripts/generate_rsv_hierarchy.py`).

The script's core is pure: it loads a mapping from lineage names to records
(each record declaring a single `parent`, with the sentinel string `"none"`
marking a root), topologically sorts the names by a depth-first traversal
from the alphabetically sorted roots (children visited in alphabetical
order), converts the sorted names to hierarchy entries (empty `aliases`,
`parents` a zero- or one-element list), and serializes the entries as a
textual nested mapping.

We embed these functions shallowly:

* a `LineageCollection` is an association list from names to parent names
  (the Python `dict` preserves insertion order, which an association list
  models; key uniqueness is assumed as a hypothesis where a theorem needs
  it, since a Python `dict` cannot hold duplicate keys);
* the recursive `dfs` closure is embedded with an explicit fuel argument
  (structural recursion on the fuel) and an explicit `visited`/`result`
  state pair; fuel `length + 1` is provably never exhausted because the
  recursion depth is bounded by the number of distinct visited names;
* Python's `sorted` on strings is embedded as an insertion sort by the
  lexicographic order on strings (on duplicate-free lists of strings every
  comparison sort agrees, and equal strings are identical, so stability
  is irrelevant);
* the loader is embedded over already-parsed raw records whose fields are
  `Option`-valued (a missing key models Python's `KeyError`).
-/

/-- A lineage record as consumed by the builder: the pair of its `name`
and its `parent` field (`"none"` means root). A `LineageCollection` is the
insertion-ordered association list underlying the Python `dict`
`name ↦ record`. -/
abbrev LineageCollection := List (String × String)

/-- Lexicographic comparison of two lists of characters by code point;
this is the order Python uses to compare strings. -/
def charListLe : List Char → List Char → Bool
  | [], _ => true
  | _ :: _, [] => false
  | a :: as, b :: bs =>
    if a.toNat < b.toNat then true
    else if b.toNat < a.toNat then false
    else charListLe as bs

/-- Python's `<=` on strings: lexicographic comparison by code point. -/
def strLe (a b : String) : Bool := charListLe a.data b.data

/-- Insert a string into a sorted list, keeping lexicographic order.
Helper for `sortStrings`. -/
def insertSorted (a : String) : List String → List String
  | [] => [a]
  | b :: bs => if strLe a b then a :: b :: bs else b :: insertSorted a bs

/-- Embedding of Python's `sorted` on a list of strings: ascending
lexicographic order. -/
def sortStrings (l : List String) : List String := l.foldr insertSorted []

/-- The `roots` list built by `topological_sort`: names whose parent field
is the sentinel `"none"`, in iteration order. -/
def rootsOf (lineages : LineageCollection) : List String :=
  (lineages.filter (fun r => r.2 == "none")).map Prod.fst

/-- The `children` adjacency mapping built by `topological_sort`:
`childrenOf lineages p` lists the names whose parent field equals `p`
(and is not the sentinel), in iteration order. -/
def childrenOf (lineages : LineageCollection) (parent : String) : List String :=
  (lineages.filter (fun r => r.2 != "none" && r.2 == parent)).map Prod.fst

/-- The recursive `dfs` closure of `topological_sort`. The state is the
pair `(visited, result)`; `fuel` bounds the recursion depth (each
recursive level first marks a previously unvisited node, so depth is
bounded by the number of distinct names and the fuel chosen by
`topological_sort` is never exhausted). -/
def dfs (children : String → List String) :
    Nat → String → List String × List String → List String × List String
  | 0, _, st => st
  | fuel + 1, node, st =>
    if node ∈ st.1 then st
    else
      (sortStrings (children node)).foldl
        (fun acc child => dfs children fuel child acc)
        (node :: st.1, st.2 ++ [node])

/-- The fold running `dfs` over a list of start nodes in order, threading
the state: this is the shape of both the children loop inside `dfs` and
the roots loop of `topological_sort`. -/
def dfsFold (children : String → List String) (fuel : Nat)
    (nodes : List String) (st : List String × List String) :
    List String × List String :=
  nodes.foldl (fun acc node => dfs children fuel node acc) st

/-- Embedding of `topological_sort`: depth-first traversal from the
alphabetically sorted roots, visiting children alphabetically, returning
the list of visited names in visit order. -/
def topological_sort (lineages : LineageCollection) : List String :=
  let children := childrenOf lineages
  let roots := rootsOf lineages
  ((sortStrings roots).foldl
      (fun st root => dfs children (lineages.length + 1) root st)
      ([], [])).2

/-- Index of the first occurrence of a string in a list (the list length
when absent): the notion of output position used to state the topological
invariant. -/
def idxIn (a : String) : List String → Nat
  | [] => 0
  | b :: bs => if b = a then 0 else idxIn a bs + 1

/-- The topological invariant on an output list: every listed name whose
record's parent is not the sentinel has that parent listed at a strictly
smaller index. -/
def parentBefore (lineages : LineageCollection) (res : List String) : Prop :=
  ∀ r ∈ res, ∀ p, lineages.lookup r = some p → p ≠ "none" →
    p ∈ res ∧ idxIn p res < idxIn r res

/-- An entry of the produced hierarchy: the `aliases` list and the
`parents` list built by `convert_to_silo_format`. -/
structure HierarchyEntry where
  aliases : List String
  parents : List String
deriving DecidableEq, Repr

/-- The loop body of `convert_to_silo_format`, iterating over the sorted
names. Looking a name up in the collection models the Python subscript
`lineages[name]`; a failed lookup (Python `KeyError`) yields `none`. -/
def convertList (lineages : LineageCollection) :
    List String → Option (List (String × HierarchyEntry))
  | [] => some []
  | name :: rest =>
    match lineages.lookup name with
    | none => none
    | some parent =>
      match convertList lineages rest with
      | none => none
      | some tl =>
        some ((name, ⟨[], if parent != "none" then [parent] else []⟩) :: tl)

/-- Embedding of `convert_to_silo_format`: build the ordered hierarchy by
looking every topologically sorted name up in the collection. -/
def convert_to_silo_format (lineages : LineageCollection) :
    Option (List (String × HierarchyEntry)) :=
  convertList lineages (topological_sort lineages)

/-- Python's `repr` of a list of strings, as interpolated by the f-string
`f"  aliases: \x7bsilo_hierarchy[name]['aliases']\x7d"`; the empty list
renders as `[]`. -/
def pyListRepr (xs : List String) : String :=
  "[" ++ String.intercalate ", " (xs.map (fun s => "'" ++ s ++ "'")) ++ "]"

/-- The text written for a single hierarchy entry by the write loop of
`generate_hierarchy_file`. -/
def serializeEntry (name : String) (entry : HierarchyEntry) : String :=
  name ++ ":\n" ++
    ("  aliases: " ++ pyListRepr entry.aliases ++ "\n") ++
    (if entry.parents.isEmpty then "  parents: []\n"
     else "  parents:\n" ++ String.join (entry.parents.map (fun p => "  - " ++ p ++ "\n")))

/-- Embedding of the file-writing loop of `generate_hierarchy_file`: the
full text written to `lineages.yaml`, one block per hierarchy entry, in
order. -/
def generate_hierarchy_file (hierarchy : List (String × HierarchyEntry)) : String :=
  String.join (hierarchy.map (fun e => serializeEntry e.1 e.2))

/-- The block of output text the spec prescribes for a single entry,
written from the spec's two templates (entry shapes the converter never
produces are mapped to the empty string). This definition follows the
spec's words, to be compared against the writer embedded from the code. -/
def specBlock (e : String × HierarchyEntry) : String :=
  match e.2.parents with
  | [] => e.1 ++ ":\n  aliases: []\n  parents: []\n"
  | [p] => e.1 ++ ":\n  aliases: []\n  parents:\n  - " ++ p ++ "\n"
  | _ => ""

/-- A raw record as parsed from one YAML file, before the loader touches
it: each required field may be missing (`none` models a missing key, so a
field access on it models a Python `KeyError`). -/
structure RawRecord where
  name : Option String
  parent : Option String
deriving DecidableEq, Repr

/-- Python `dict` assignment `d[k] = v`: replace the value in place if the
key exists (keeping its position), otherwise append the binding. -/
def dictInsert (m : List (String × RawRecord)) (key : String) (v : RawRecord) :
    List (String × RawRecord) :=
  if m.any (fun e => e.1 == key) then
    m.map (fun e => if e.1 == key then (key, v) else e)
  else m ++ [(key, v)]

/-- Embedding of the loading loop of `load_lineage_files` over the parsed
record files (in glob order): store each record under its `name` field;
accessing a missing `name` field raises, modelled by `Except.error`. The
`parent` field is never accessed by the loader. -/
def load_lineage_files (files : List RawRecord) :
    Except String (List (String × RawRecord)) :=
  files.foldlM
    (fun lineages data =>
      match data.name with
      | some n => Except.ok (dictInsert lineages n data)
      | none => Except.error "KeyError: name")
    []

/-- A name is reachable when it is a declared root, or its declared
parent link leads to a reachable name: exactly the names the spec calls
"reachable from a root through declared parent links". -/
inductive Reachable (lineages : LineageCollection) : String → Prop where
  | root (n : String) : (n, "none") ∈ lineages → Reachable lineages n
  | child (n p : String) :
      Reachable lineages p → (n, p) ∈ lineages → p ≠ "none" →
      Reachable lineages n

/-- Decidable statement that following parent links upward from `n` for at
most `fuel` steps reaches a declared root. When it holds for every name
with fuel `lineages.length + 1`, the parent relation has no cycle and
every parent is present: each upward chain strictly ascends through
distinct names, so on a cycle-free collection the bound is reached. -/
def ancestryRooted (lineages : LineageCollection) : Nat → String → Bool
  | 0, _ => false
  | fuel + 1, n =>
    match lineages.lookup n with
    | some p => if p == "none" then true else ancestryRooted lineages fuel p
    | none => false

example : topological_sort [("B", "none"), ("A", "none")] = ["A", "B"] := by decide

example :
    topological_sort [("A", "none"), ("A.1", "A"), ("A.2", "A"), ("A.1.1", "A.1")] =
      ["A", "A.1", "A.1.1", "A.2"] := by decide

example :
    convert_to_silo_format [("A", "none"), ("A.1", "A"), ("A.2", "A"), ("A.1.1", "A.1")] =
      some [("A", ⟨[], []⟩), ("A.1", ⟨[], ["A"]⟩), ("A.1.1", ⟨[], ["A.1"]⟩),
        ("A.2", ⟨[], ["A"]⟩)] := by decide

example :
    generate_hierarchy_file [("A", ⟨[], []⟩), ("A.1", ⟨[], ["A"]⟩)] =
      "A:\n  aliases: []\n  parents: []\nA.1:\n  aliases: []\n  parents:\n  - A\n" := by decide

example :
    load_lineage_files [⟨some "A", some "none"⟩, ⟨none, some "A"⟩] =
      Except.error "KeyError: name" := by rfl

example :
    load_lineage_files [⟨some "A", none⟩] = Except.ok [("A", ⟨some "A", none⟩)] := by rfl

example : ancestryRooted [("A", "none"), ("A.1", "A")] 3 "A.1" = true := by decide

example : ancestryRooted [("A", "A.1"), ("A.1", "A")] 3 "A.1" = false := by decide

/-! ### Basic lemmas about sorting, adjacency, and lookup -/

theorem mem_insertSorted {x a : String} {l : List String} :
    x ∈ insertSorted a l ↔ x = a ∨ x ∈ l := by
  induction l with
  | nil => simp [insertSorted]
  | cons b bs ih =>
    simp only [insertSorted]
    split
    · simp [List.mem_cons]
    · simp only [List.mem_cons, ih]
      tauto

theorem mem_sortStrings {x : String} {l : List String} :
    x ∈ sortStrings l ↔ x ∈ l := by
  induction l with
  | nil => simp [sortStrings]
  | cons b bs ih =>
    show x ∈ insertSorted b (sortStrings bs) ↔ _
    rw [mem_insertSorted, ih]
    simp

theorem mem_childrenOf {lineages : LineageCollection} {c p : String} :
    c ∈ childrenOf lineages p ↔ (c, p) ∈ lineages ∧ p ≠ "none" := by
  constructor
  · intro h
    simp only [childrenOf, List.mem_map, List.mem_filter] at h
    obtain ⟨⟨c', p'⟩, ⟨hmem, hcond⟩, hfst⟩ := h
    simp only [Bool.and_eq_true, bne_iff_ne, beq_iff_eq] at hcond
    obtain ⟨hne, rfl⟩ := hcond
    cases hfst
    exact ⟨hmem, hne⟩
  · rintro ⟨hmem, hne⟩
    simp only [childrenOf, List.mem_map, List.mem_filter]
    exact ⟨(c, p), ⟨hmem, by simp [hne]⟩, rfl⟩

theorem mem_rootsOf {lineages : LineageCollection} {n : String} :
    n ∈ rootsOf lineages ↔ (n, "none") ∈ lineages := by
  constructor
  · intro h
    simp only [rootsOf, List.mem_map, List.mem_filter] at h
    obtain ⟨⟨n', p'⟩, ⟨hmem, hcond⟩, hfst⟩ := h
    simp only [beq_iff_eq] at hcond
    cases hfst
    cases hcond
    exact hmem
  · intro hmem
    simp only [rootsOf, List.mem_map, List.mem_filter]
    exact ⟨(n, "none"), ⟨hmem, by simp⟩, rfl⟩

theorem childrenOf_mem_keys {lineages : LineageCollection} {c p : String}
    (h : c ∈ childrenOf lineages p) : c ∈ lineages.map Prod.fst := by
  rcases mem_childrenOf.1 h with ⟨hmem, -⟩
  exact List.mem_map.2 ⟨(c, p), hmem, rfl⟩

theorem rootsOf_mem_keys {lineages : LineageCollection} {n : String}
    (h : n ∈ rootsOf lineages) : n ∈ lineages.map Prod.fst :=
  List.mem_map.2 ⟨(n, "none"), mem_rootsOf.1 h, rfl⟩

theorem lookup_mem {l : LineageCollection} {a b : String} :
    l.lookup a = some b → (a, b) ∈ l := by
  induction l with
  | nil => intro h; simp [List.lookup] at h
  | cons e es ih =>
    intro h
    obtain ⟨k, v⟩ := e
    by_cases hk : a = k
    · subst hk
      simp [List.lookup] at h
      simp [h]
    · have hbeq : (a == k) = false := by simp [hk]
      simp [List.lookup, hbeq] at h
      exact List.mem_cons_of_mem _ (ih h)

theorem lookup_of_mem_nodup {l : LineageCollection}
    (hnd : (l.map Prod.fst).Nodup) {a b : String} (h : (a, b) ∈ l) :
    l.lookup a = some b := by
  induction l with
  | nil => simp at h
  | cons e es ih =>
    obtain ⟨k, v⟩ := e
    simp only [List.map_cons, List.nodup_cons] at hnd
    rcases List.mem_cons.1 h with heq | hmem
    · cases heq
      simp [List.lookup]
    · have hk : a ≠ k := by
        rintro rfl
        exact hnd.1 (List.mem_map.2 ⟨(a, b), hmem, rfl⟩)
      have hbeq : (a == k) = false := by simp [hk]
      simp [List.lookup, hbeq]
      exact ih hnd.2 hmem

theorem lookup_isSome_of_mem_keys {l : LineageCollection} {a : String}
    (h : a ∈ l.map Prod.fst) : ∃ b, l.lookup a = some b := by
  induction l with
  | nil => simp at h
  | cons e es ih =>
    obtain ⟨k, v⟩ := e
    by_cases hk : a = k
    · subst hk
      exact ⟨v, by simp [List.lookup]⟩
    · have hbeq : (a == k) = false := by simp [hk]
      simp only [List.map_cons, List.mem_cons] at h
      rcases h with h | h
    
      · exact absurd h hk
      · rcases ih h with ⟨b, hb⟩
        exact ⟨b, by simp [List.lookup, hbeq, hb]⟩

/-! ### Index lemmas -/

theorem idxIn_lt_length {a : String} {l : List String} (h : a ∈ l) :
    idxIn a l < l.length := by
  induction l with
  | nil => simp at h
  | cons b bs ih =>
    simp only [idxIn, List.length_cons]
    split
    · omega
    · rcases List.mem_cons.1 h with rfl | h
      · simp_all
      · exact Nat.succ_lt_succ (ih h)

theorem idxIn_append_left {a : String} {l t : List String} (h : a ∈ l) :
    idxIn a (l ++ t) = idxIn a l := by
  induction l with
  | nil => simp at h
  | cons b bs ih =>
    simp only [List.cons_append, idxIn]
    split
    · rfl
    · rcases List.mem_cons.1 h with rfl | h
      · simp_all
      · exact congrArg (· + 1) (ih h)

theorem idxIn_append_self {a : String} {l : List String} (h : a ∉ l) :
    idxIn a (l ++ [a]) = l.length := by
  induction l with
  | nil => simp [idxIn]
  | cons b bs ih =>
    simp only [List.cons_append, idxIn, List.length_cons]
    split
    · rename_i hba
      exact absurd (hba ▸ List.mem_cons_self b bs) h
    · exact congrArg (· + 1) (ih (fun hm => h (List.mem_cons_of_mem _ hm)))

/-! ### Extension: `dfs` only grows the visited set and the result list -/

theorem dfs_ext (children : String → List String) :
    ∀ (fuel : Nat) (node : String) (st : List String × List String),
      ∃ u t, dfs children fuel node st = (u ++ st.1, st.2 ++ t) := by
  intro fuel
  induction fuel with
  | zero => intro node st; exact ⟨[], [], by simp [dfs]⟩
  | succ fuel ih =>
    intro node st
    by_cases hv : node ∈ st.1
    · exact ⟨[], [], by simp [dfs, hv]⟩
    · have haux : ∀ (cs : List String) (st' : List String × List String),
          ∃ u t, dfsFold children fuel cs st' = (u ++ st'.1, st'.2 ++ t) := by
        intro cs
        induction cs with
        | nil => intro st'; exact ⟨[], [], by simp [dfsFold]⟩
        | cons c cs ihc =>
          intro st'
          rcases ih c st' with ⟨u1, t1, h1⟩
          rcases ihc (dfs children fuel c st') with ⟨u2, t2, h2⟩
          refine ⟨u2 ++ u1, t1 ++ t2, ?_⟩
          show dfsFold children fuel cs (dfs children fuel c st') = _
          rw [h2, h1]
          simp
      rcases haux (sortStrings (children node)) (node :: st.1, st.2 ++ [node]) with ⟨u, t, h⟩
      refine ⟨u ++ [node], [node] ++ t, ?_⟩
      have : dfs children (fuel + 1) node st =
          dfsFold children fuel (sortStrings (children node))
            (node :: st.1, st.2 ++ [node]) := by
        simp [dfs, hv, dfsFold]
      rw [this, h]
      simp

theorem dfsFold_ext (children : String → List String) (fuel : Nat) :
    ∀ (ns : List String) (st : List String × List String),
      ∃ u t, dfsFold children fuel ns st = (u ++ st.1, st.2 ++ t) := by
  intro ns
  induction ns with
  | nil => intro st; exact ⟨[], [], by simp [dfsFold]⟩
  | cons n ns ih =>
    intro st
    rcases dfs_ext children fuel n st with ⟨u1, t1, h1⟩
    rcases ih (dfs children fuel n st) with ⟨u2, t2, h2⟩
    refine ⟨u2 ++ u1, t1 ++ t2, ?_⟩
    show dfsFold children fuel ns (dfs children fuel n st) = _
    rw [h2, h1]
    simp

/-! ### Master invariants of the depth-first traversal -/

theorem topological_sort_eq (lineages : LineageCollection) :
    topological_sort lineages =
      (dfsFold (childrenOf lineages) (lineages.length + 1)
        (sortStrings (rootsOf lineages)) ([], [])).2 := rfl

theorem dfsFold_basic (lineages : LineageCollection) :
    ∀ (fuel : Nat) (ns : List String) (st : List String × List String),
      (∀ n ∈ ns, n ∈ lineages.map Prod.fst) →
      (∀ x, x ∈ st.1 ↔ x ∈ st.2) →
      st.2.Nodup →
      (∀ x ∈ st.2, x ∈ lineages.map Prod.fst) →
      (∀ x, x ∈ (dfsFold (childrenOf lineages) fuel ns st).1 ↔
          x ∈ (dfsFold (childrenOf lineages) fuel ns st).2) ∧
      (dfsFold (childrenOf lineages) fuel ns st).2.Nodup ∧
      (∀ x ∈ (dfsFold (childrenOf lineages) fuel ns st).2,
        x ∈ lineages.map Prod.fst) := by
  intro fuel
  induction fuel with
  | zero =>
    intro ns
    induction ns with
    | nil => intro st _ h1 h2 h3; exact ⟨h1, h2, h3⟩
    | cons n ns ihn =>
      intro st hns h1 h2 h3
      have hstep : dfsFold (childrenOf lineages) 0 (n :: ns) st =
          dfsFold (childrenOf lineages) 0 ns st := rfl
      rw [hstep]
      exact ihn st (fun m hm => hns m (List.mem_cons_of_mem _ hm)) h1 h2 h3
  | succ fuel ihf =>
    intro ns
    induction ns with
    | nil => intro st _ h1 h2 h3; exact ⟨h1, h2, h3⟩
    | cons n ns ihn =>
      intro st hns h1 h2 h3
      have hrest : ∀ m ∈ ns, m ∈ lineages.map Prod.fst :=
        fun m hm => hns m (List.mem_cons_of_mem _ hm)
      have hstep : dfsFold (childrenOf lineages) (fuel + 1) (n :: ns) st =
          dfsFold (childrenOf lineages) (fuel + 1) ns
            (dfs (childrenOf lineages) (fuel + 1) n st) := rfl
      rw [hstep]
      by_cases hv : n ∈ st.1
      · have hid : dfs (childrenOf lineages) (fuel + 1) n st = st := by
          simp [dfs, hv]
        rw [hid]
        exact ihn st hrest h1 h2 h3
      · have hn2 : n ∉ st.2 := fun h => hv ((h1 n).2 h)
        have hd : dfs (childrenOf lineages) (fuel + 1) n st =
            dfsFold (childrenOf lineages) fuel
              (sortStrings (childrenOf lineages n)) (n :: st.1, st.2 ++ [n]) := by
          simp [dfs, hv, dfsFold]
        rw [hd]
        have h1' : ∀ x, x ∈ n :: st.1 ↔ x ∈ st.2 ++ [n] := by
          intro x
          simp only [List.mem_cons, List.mem_append, List.mem_singleton, h1 x]
          tauto
        have h2' : (st.2 ++ [n]).Nodup := by
          simp [List.nodup_append, h2, hn2]
        have h3' : ∀ x ∈ st.2 ++ [n], x ∈ lineages.map Prod.fst := by
          intro x hx
          rcases List.mem_append.1 hx with hx | hx
          · exact h3 x hx
          · rw [List.mem_singleton.1 hx]
            exact hns n (List.mem_cons_self n ns)
        have hch : ∀ c ∈ sortStrings (childrenOf lineages n),
            c ∈ lineages.map Prod.fst :=
          fun c hc => childrenOf_mem_keys (mem_sortStrings.1 hc)
        have hmid := ihf (sortStrings (childrenOf lineages n))
          (n :: st.1, st.2 ++ [n]) hch h1' h2' h3'
        exact ihn _ hrest hmid.1 hmid.2.1 hmid.2.2

theorem parentBefore_append {lineages : LineageCollection} {res : List String}
    {node : String} (hpb : parentBefore lineages res) (hnode : node ∉ res)
    (hpar : ∀ p, lineages.lookup node = some p → p ≠ "none" → p ∈ res) :
    parentBefore lineages (res ++ [node]) := by
  intro r hr p hlook hpne
  rcases List.mem_append.1 hr with hr | hr
  · rcases hpb r hr p hlook hpne with ⟨hpmem, hplt⟩
    refine ⟨List.mem_append_left _ hpmem, ?_⟩
    rw [idxIn_append_left hpmem, idxIn_append_left hr]
    exact hplt
  · have hrn : r = node := List.mem_singleton.1 hr
    subst hrn
    have hpmem := hpar p hlook hpne
    refine ⟨List.mem_append_left _ hpmem, ?_⟩
    rw [idxIn_append_left hpmem, idxIn_append_self hnode]
    exact idxIn_lt_length hpmem

theorem dfsFold_topo (lineages : LineageCollection)
    (hkeys : (lineages.map Prod.fst).Nodup) :
    ∀ (fuel : Nat) (ns : List String) (st : List String × List String),
      (∀ n ∈ ns, ∀ p, lineages.lookup n = some p → p ≠ "none" → p ∈ st.2) →
      (∀ x, x ∈ st.1 ↔ x ∈ st.2) →
      parentBefore lineages st.2 →
      (∀ x, x ∈ (dfsFold (childrenOf lineages) fuel ns st).1 ↔
          x ∈ (dfsFold (childrenOf lineages) fuel ns st).2) ∧
      parentBefore lineages (dfsFold (childrenOf lineages) fuel ns st).2 := by
  intro fuel
  induction fuel with
  | zero =>
    intro ns
    induction ns with
    | nil => intro st _ h1 h2; exact ⟨h1, h2⟩
    | cons n ns ihn =>
      intro st hns h1 h2
      have hstep : dfsFold (childrenOf lineages) 0 (n :: ns) st =
          dfsFold (childrenOf lineages) 0 ns st := rfl
      rw [hstep]
      exact ihn st (fun m hm => hns m (List.mem_cons_of_mem _ hm)) h1 h2
  | succ fuel ihf =>
    intro ns
    induction ns with
    | nil => intro st _ h1 h2; exact ⟨h1, h2⟩
    | cons n ns ihn =>
      intro st hns h1 h2
      have hstep : dfsFold (childrenOf lineages) (fuel + 1) (n :: ns) st =
          dfsFold (childrenOf lineages) (fuel + 1) ns
            (dfs (childrenOf lineages) (fuel + 1) n st) := rfl
      rw [hstep]
      by_cases hv : n ∈ st.1
      · have hid : dfs (childrenOf lineages) (fuel + 1) n st = st := by
          simp [dfs, hv]
        rw [hid]
        exact ihn st (fun m hm => hns m (List.mem_cons_of_mem _ hm)) h1 h2
      · have hn2 : n ∉ st.2 := fun h => hv ((h1 n).2 h)
        have hd : dfs (childrenOf lineages) (fuel + 1) n st =
            dfsFold (childrenOf lineages) fuel
              (sortStrings (childrenOf lineages n)) (n :: st.1, st.2 ++ [n]) := by
          simp [dfs, hv, dfsFold]
        rw [hd]
        have h1' : ∀ x, x ∈ n :: st.1 ↔ x ∈ st.2 ++ [n] := by
          intro x
          simp only [List.mem_cons, List.mem_append, List.mem_singleton, h1 x]
          tauto
        have h2' : parentBefore lineages (st.2 ++ [n]) :=
          parentBefore_append h2 hn2 (hns n (List.mem_cons_self n ns))
        have hch : ∀ c ∈ sortStrings (childrenOf lineages n),
            ∀ p, lineages.lookup c = some p → p ≠ "none" → p ∈ st.2 ++ [n] := by
          intro c hc p hlook hpne
          rcases mem_childrenOf.1 (mem_sortStrings.1 hc) with ⟨hmem, hnne⟩
          have : lineages.lookup c = some n := lookup_of_mem_nodup hkeys hmem
          rw [this] at hlook
          cases hlook
          exact List.mem_append_right _ (List.mem_singleton.2 rfl)
        have hmid := ihf (sortStrings (childrenOf lineages n))
          (n :: st.1, st.2 ++ [n]) hch h1' h2'
        rcases dfsFold_ext (childrenOf lineages) fuel
          (sortStrings (childrenOf lineages n)) (n :: st.1, st.2 ++ [n]) with ⟨u, t, hext⟩
        refine ihn _ ?_ hmid.1 hmid.2
        intro m hm p hlook hpne
        have hmem : p ∈ st.2 := hns m (List.mem_cons_of_mem _ hm) p hlook hpne
        rw [hext]
        exact List.mem_append_left _ (List.mem_append_left _ hmem)

theorem dfsFold_reach (lineages : LineageCollection) :
    ∀ (fuel : Nat) (ns : List String) (st : List String × List String),
      (∀ n ∈ ns, Reachable lineages n) →
      (∀ x ∈ st.2, Reachable lineages x) →
      ∀ x ∈ (dfsFold (childrenOf lineages) fuel ns st).2, Reachable lineages x := by
  intro fuel
  induction fuel with
  | zero =>
    intro ns
    induction ns with
    | nil => intro st _ h2; exact h2
    | cons n ns ihn =>
      intro st hns h2
      exact ihn st (fun m hm => hns m (List.mem_cons_of_mem _ hm)) h2
  | succ fuel ihf =>
    intro ns
    induction ns with
    | nil => intro st _ h2; exact h2
    | cons n ns ihn =>
      intro st hns h2
      have hstep : dfsFold (childrenOf lineages) (fuel + 1) (n :: ns) st =
          dfsFold (childrenOf lineages) (fuel + 1) ns
            (dfs (childrenOf lineages) (fuel + 1) n st) := rfl
      rw [hstep]
      by_cases hv : n ∈ st.1
      · have hid : dfs (childrenOf lineages) (fuel + 1) n st = st := by
          simp [dfs, hv]
        rw [hid]
        exact ihn st (fun m hm => hns m (List.mem_cons_of_mem _ hm)) h2
      · have hd : dfs (childrenOf lineages) (fuel + 1) n st =
            dfsFold (childrenOf lineages) fuel
              (sortStrings (childrenOf lineages n)) (n :: st.1, st.2 ++ [n]) := by
          simp [dfs, hv, dfsFold]
        rw [hd]
        have hreach : Reachable lineages n := hns n (List.mem_cons_self n ns)
        have h2' : ∀ x ∈ st.2 ++ [n], Reachable lineages x := by
          intro x hx
          rcases List.mem_append.1 hx with hx | hx
          · exact h2 x hx
          · rw [List.mem_singleton.1 hx]
            exact hreach
        have hch : ∀ c ∈ sortStrings (childrenOf lineages n), Reachable lineages c := by
          intro c hc
          rcases mem_childrenOf.1 (mem_sortStrings.1 hc) with ⟨hmem, hnne⟩
          exact Reachable.child c n hreach hmem hnne
        exact ihn _ (fun m hm => hns m (List.mem_cons_of_mem _ hm))
          (ihf (sortStrings (childrenOf lineages n)) (n :: st.1, st.2 ++ [n]) hch h2')

theorem dfsFold_complete (lineages : LineageCollection) :
    ∀ (fuel : Nat) (ns : List String) (st : List String × List String),
      (∀ n ∈ ns, n ∈ lineages.map Prod.fst) →
      st.1.Nodup →
      (∀ x ∈ st.1, x ∈ lineages.map Prod.fst) →
      lineages.length + 1 ≤ fuel + st.1.length →
      (dfsFold (childrenOf lineages) fuel ns st).1.Nodup ∧
      (∀ x ∈ (dfsFold (childrenOf lineages) fuel ns st).1,
        x ∈ lineages.map Prod.fst) ∧
      (∀ n ∈ ns, n ∈ (dfsFold (childrenOf lineages) fuel ns st).1) ∧
      (∀ x ∈ (dfsFold (childrenOf lineages) fuel ns st).1, x ∉ st.1 →
        ∀ c ∈ childrenOf lineages x,
          c ∈ (dfsFold (childrenOf lineages) fuel ns st).1) := by
  intro fuel
  induction fuel with
  | zero =>
    intro ns
    cases ns with
    | nil =>
      intro st _ hnd hsub _
      exact ⟨hnd, hsub, by simp, fun x hx hnx _ _ => absurd hx hnx⟩
    | cons n ns =>
      intro st _ hnd hsub hfuel
      exfalso
      have hflen : st.1.length ≤ lineages.length := by
        have hcard : st.1.toFinset.card = st.1.length := List.toFinset_card_of_nodup hnd
        have hsubF : st.1.toFinset ⊆ (lineages.map Prod.fst).toFinset := by
          intro x hx
          exact List.mem_toFinset.2 (hsub x (List.mem_toFinset.1 hx))
        have hle1 : st.1.toFinset.card ≤ (lineages.map Prod.fst).toFinset.card :=
          Finset.card_le_card hsubF
        have hle2 : (lineages.map Prod.fst).toFinset.card ≤ (lineages.map Prod.fst).length :=
          List.toFinset_card_le _
        have hlen : (lineages.map Prod.fst).length = lineages.length := List.length_map _ _
        omega
      omega
  | succ fuel ihf =>
    intro ns
    induction ns with
    | nil =>
      intro st _ hnd hsub _
      exact ⟨hnd, hsub, by simp, fun x hx hnx _ _ => absurd hx hnx⟩
    | cons n ns ihn =>
      intro st hns hnd hsub hfuel
      have hrest : ∀ m ∈ ns, m ∈ lineages.map Prod.fst :=
        fun m hm => hns m (List.mem_cons_of_mem _ hm)
      have hstep : dfsFold (childrenOf lineages) (fuel + 1) (n :: ns) st =
          dfsFold (childrenOf lineages) (fuel + 1) ns
            (dfs (childrenOf lineages) (fuel + 1) n st) := rfl
      rw [hstep]
      by_cases hv : n ∈ st.1
      · have hid : dfs (childrenOf lineages) (fuel + 1) n st = st := by
          simp [dfs, hv]
        rw [hid]
        rcases ihn st hrest hnd hsub hfuel with ⟨c1, c2, c3, c4⟩
        rcases dfsFold_ext (childrenOf lineages) (fuel + 1) ns st with ⟨u, t, hext⟩
        refine ⟨c1, c2, ?_, c4⟩
        intro m hm
        rcases List.mem_cons.1 hm with rfl | hm
        · rw [hext]
          exact List.mem_append_right _ hv
        · exact c3 m hm
      · have hd : dfs (childrenOf lineages) (fuel + 1) n st =
            dfsFold (childrenOf lineages) fuel
              (sortStrings (childrenOf lineages n)) (n :: st.1, st.2 ++ [n]) := by
          simp [dfs, hv, dfsFold]
        rw [hd]
        have hnk : n ∈ lineages.map Prod.fst := hns n (List.mem_cons_self n ns)
        have hnd' : (n :: st.1).Nodup := List.nodup_cons.2 ⟨hv, hnd⟩
        have hsub' : ∀ x ∈ n :: st.1, x ∈ lineages.map Prod.fst := by
          intro x hx
          rcases List.mem_cons.1 hx with rfl | hx
          · exact hnk
          · exact hsub x hx
        have hch : ∀ c ∈ sortStrings (childrenOf lineages n),
            c ∈ lineages.map Prod.fst :=
          fun c hc => childrenOf_mem_keys (mem_sortStrings.1 hc)
        have hfuel' : lineages.length + 1 ≤ fuel + (n :: st.1).length := by
          simp only [List.length_cons]
          omega
        rcases ihf (sortStrings (childrenOf lineages n)) (n :: st.1, st.2 ++ [n])
          hch hnd' hsub' hfuel' with ⟨m1, m2, m3, m4⟩
        rcases dfsFold_ext (childrenOf lineages) fuel
          (sortStrings (childrenOf lineages n)) (n :: st.1, st.2 ++ [n]) with ⟨u1, t1, hext1⟩
        set mid := dfsFold (childrenOf lineages) fuel
          (sortStrings (childrenOf lineages n)) (n :: st.1, st.2 ++ [n]) with hmid
        have hmidlen : st.1.length + 1 ≤ mid.1.length := by
          rw [hext1]
          simp only [List.length_append, List.length_cons]
          omega
        have hfuel'' : lineages.length + 1 ≤ (fuel + 1) + mid.1.length := by omega
        rcases ihn mid hrest m1 m2 hfuel'' with ⟨c1, c2, c3, c4⟩
        rcases dfsFold_ext (childrenOf lineages) (fuel + 1) ns mid with ⟨u2, t2, hext2⟩
        have hmidsub : ∀ x ∈ mid.1,
            x ∈ (dfsFold (childrenOf lineages) (fuel + 1) ns mid).1 := by
          intro x hx
          rw [hext2]
          exact List.mem_append_right _ hx
        have hnin : n ∈ mid.1 := by
          rw [hext1]
          exact List.mem_append_right _ (List.mem_cons_self n st.1)
        refine ⟨c1, c2, ?_, ?_⟩
        · intro m hm
          rcases List.mem_cons.1 hm with rfl | hm
          · exact hmidsub m hnin
          · exact c3 m hm
        · intro x hx hnx c hc
          by_cases hxmid : x ∈ mid.1
          · by_cases hxst : x ∈ n :: st.1
            · have hxn : x = n := by
                rcases List.mem_cons.1 hxst with rfl | hxst
                · rfl
                · exact absurd hxst hnx
              subst hxn
              exact hmidsub c (m3 c (mem_sortStrings.2 hc))
            · exact hmidsub c (m4 x hxmid hxst c hc)
          · exact c4 x hx hxmid c hc

/-! ### Properties of the converter -/

theorem convertList_entries (lineages : LineageCollection) :
    ∀ (names : List String) (out : List (String × HierarchyEntry)),
      convertList lineages names = some out →
      ∀ e ∈ out, e.2.aliases = [] ∧
        ∃ p, lineages.lookup e.1 = some p ∧
          e.2.parents = if p ≠ "none" then [p] else [] := by
  intro names
  induction names with
  | nil =>
    intro out h e he
    simp only [convertList, Option.some.injEq] at h
    subst h
    simp at he
  | cons name rest ih =>
    intro out h e he
    simp only [convertList] at h
    cases hl : lineages.lookup name with
    | none => rw [hl] at h; cases h
    | some parent =>
      rw [hl] at h
      cases hr : convertList lineages rest with
      | none => rw [hr] at h; cases h
      | some tl =>
        rw [hr] at h
        simp only [Option.some.injEq] at h
        subst h
        rcases List.mem_cons.1 he with rfl | he
        · refine ⟨rfl, parent, hl, ?_⟩
          by_cases hp : parent = "none" <;> simp [hp]
        · exact ih tl hr e he

theorem convertList_names (lineages : LineageCollection) :
    ∀ (names : List String) (out : List (String × HierarchyEntry)),
      convertList lineages names = some out →
      out.map Prod.fst = names := by
  intro names
  induction names with
  | nil =>
    intro out h
    simp only [convertList, Option.some.injEq] at h
    subst h
    rfl
  | cons name rest ih =>
    intro out h
    simp only [convertList] at h
    cases hl : lineages.lookup name with
    | none => rw [hl] at h; cases h
    | some parent =>
      rw [hl] at h
      cases hr : convertList lineages rest with
      | none => rw [hr] at h; cases h
      | some tl =>
        rw [hr] at h
        simp only [Option.some.injEq] at h
        subst h
        simp [ih tl hr]

theorem convertList_total (lineages : LineageCollection) :
    ∀ names : List String,
      (∀ n ∈ names, ∃ b, lineages.lookup n = some b) →
      ∃ out, convertList lineages names = some out := by
  intro names
  induction names with
  | nil => intro _; exact ⟨[], rfl⟩
  | cons name rest ih =>
    intro h
    rcases h name (List.mem_cons_self name rest) with ⟨b, hb⟩
    rcases ih (fun n hn => h n (List.mem_cons_of_mem _ hn)) with ⟨tl, htl⟩
    refine ⟨(name, ⟨[], if b != "none" then [b] else []⟩) :: tl, ?_⟩
    simp only [convertList, hb, htl]

/-! ### The claims -/

/-- C1: for every lineage collection (with the unique names a Python dict
guarantees), every name emitted by `topological_sort` whose record's
parent is not the sentinel `"none"` has that parent emitted at a strictly
smaller index of the output sequence. -/
theorem C1_topological_invariant (lineages : LineageCollection)
    (hkeys : (lineages.map Prod.fst).Nodup) :
    ∀ r ∈ topological_sort lineages,
      ∀ p, lineages.lookup r = some p → p ≠ "none" →
        p ∈ topological_sort lineages ∧
        idxIn p (topological_sort lineages) <
          idxIn r (topological_sort lineages) := by
  have hroots : ∀ n ∈ sortStrings (rootsOf lineages),
      ∀ p, lineages.lookup n = some p → p ≠ "none" →
        p ∈ (([], []) : List String × List String).2 := by
    intro n hn p hlook hpne
    have hmem : (n, "none") ∈ lineages := mem_rootsOf.1 (mem_sortStrings.1 hn)
    have hl : lineages.lookup n = some "none" := lookup_of_mem_nodup hkeys hmem
    rw [hl] at hlook
    cases hlook
    exact absurd rfl hpne
  have h := dfsFold_topo lineages hkeys (lineages.length + 1)
    (sortStrings (rootsOf lineages)) ([], []) hroots (fun x => Iff.rfl)
    (fun r hr => absurd hr (List.not_mem_nil r))
  rw [topological_sort_eq]
  exact h.2

theorem C1_witness :
    idxIn "A"
        (topological_sort [("A", "none"), ("A.1", "A"), ("A.2", "A"), ("A.1.1", "A.1")]) <
      idxIn "A.1"
        (topological_sort [("A", "none"), ("A.1", "A"), ("A.2", "A"), ("A.1.1", "A.1")]) :=
  (C1_topological_invariant
      [("A", "none"), ("A.1", "A"), ("A.2", "A"), ("A.1.1", "A.1")]
      (by decide) "A.1" (by decide) "A" (by rfl) (by decide)).2

/-- C2: a record whose parent name is neither the sentinel `"none"` nor
reachable from a root through declared parent links is never emitted by
`topological_sort` (and no error is raised: the traversal is a total
function that simply omits it). -/
theorem C2_unreachable_dropped (lineages : LineageCollection)
    (hkeys : (lineages.map Prod.fst).Nodup) :
    ∀ n p, lineages.lookup n = some p → p ≠ "none" →
      ¬ Reachable lineages p → n ∉ topological_sort lineages := by
  intro n p hlook hpne hnr hmem
  have hreach : Reachable lineages n := by
    rw [topological_sort_eq] at hmem
    refine dfsFold_reach lineages (lineages.length + 1)
      (sortStrings (rootsOf lineages)) ([], []) ?_
      (fun x hx => absurd hx (List.not_mem_nil x)) n hmem
    intro m hm
    exact Reachable.root m (mem_rootsOf.1 (mem_sortStrings.1 hm))
  cases hreach with
  | root _ hmemr =>
    have hl := lookup_of_mem_nodup hkeys hmemr
    rw [hl] at hlook
    cases hlook
    exact hpne rfl
  | child _ q hq hmemq hqne =>
    have hl := lookup_of_mem_nodup hkeys hmemq
    rw [hl] at hlook
    cases hlook
    exact hnr hq

theorem C2_witness :
    "B" ∉ topological_sort [("A", "none"), ("B", "C")] := by
  refine C2_unreachable_dropped [("A", "none"), ("B", "C")] (by decide)
    "B" "C" (by rfl) (by decide) ?_
  intro h
  cases h with
  | root _ hmem => simp [Prod.ext_iff] at hmem
  | child _ q hq hmem hqne => simp [Prod.ext_iff] at hmem

/-- C5: the builder is deterministic: running `topological_sort` and
`convert_to_silo_format` twice on the same collection yields identical
results (both are pure functions of the collection). -/
theorem C5_deterministic (lineages : LineageCollection) :
    topological_sort lineages = topological_sort lineages ∧
    convert_to_silo_format lineages = convert_to_silo_format lineages :=
  ⟨rfl, rfl⟩

/-- C4: every entry emitted by `convert_to_silo_format` has an empty
aliases list, and its parents list is exactly `[parent]` when the
record's parent is not the sentinel `"none"` and `[]` when the record is
a root. -/
theorem C4_entry_shape (lineages : LineageCollection)
    (out : List (String × HierarchyEntry))
    (hout : convert_to_silo_format lineages = some out) :
    ∀ e ∈ out, e.2.aliases = [] ∧
      ∀ p, lineages.lookup e.1 = some p →
        e.2.parents = if p ≠ "none" then [p] else [] := by
  intro e he
  rcases convertList_entries lineages (topological_sort lineages) out hout e he with
    ⟨ha, p0, hp0, hpar⟩
  refine ⟨ha, ?_⟩
  intro p hp
  rw [hp0] at hp
  cases hp
  exact hpar

theorem C4_witness :
    (HierarchyEntry.mk [] ["A"]).aliases = [] ∧
    (HierarchyEntry.mk [] ["A"]).parents = if "A" ≠ "none" then ["A"] else [] := by
  have h := C4_entry_shape
    [("A", "none"), ("A.1", "A"), ("A.2", "A"), ("A.1.1", "A.1")]
    [("A", ⟨[], []⟩), ("A.1", ⟨[], ["A"]⟩), ("A.1.1", ⟨[], ["A.1"]⟩), ("A.2", ⟨[], ["A"]⟩)]
    (by decide) ("A.1", ⟨[], ["A"]⟩) (by decide)
  exact ⟨h.1, h.2 "A" (by rfl)⟩

theorem serializeEntry_spec_nil (name : String) :
    serializeEntry name ⟨[], []⟩ = specBlock (name, ⟨[], []⟩) := by
  have hlit : (":\n  aliases: []\n  parents: []\n" : String) =
      ":\n" ++ ("  aliases: " ++ (pyListRepr [] ++ ("\n" ++ "  parents: []\n"))) := by
    decide
  show name ++ ":\n" ++ ("  aliases: " ++ pyListRepr [] ++ "\n") ++ "  parents: []\n" =
    name ++ ":\n  aliases: []\n  parents: []\n"
  rw [hlit]
  simp [String.append_assoc]

theorem string_data_eq {a b : String} (h : a.data = b.data) : a = b := by
  cases a
  cases b
  exact congrArg String.mk h

theorem serializeEntry_spec_one (name p : String) :
    serializeEntry name ⟨[], [p]⟩ = specBlock (name, ⟨[], [p]⟩) := by
  have hj : String.join [("  - " ++ p ++ "\n" : String)] = "  - " ++ p ++ "\n" :=
    String.empty_append _
  show name ++ ":\n" ++ ("  aliases: " ++ pyListRepr [] ++ "\n") ++
      ("  parents:\n" ++ String.join [("  - " ++ p ++ "\n" : String)]) =
    name ++ ":\n  aliases: []\n  parents:\n  - " ++ p ++ "\n"
  rw [hj]
  apply string_data_eq
  simp only [String.data_append]
  have hpy : (pyListRepr []).data = ['[', ']'] := by decide
  rw [hpy]
  simp [List.append_assoc, List.cons_append, List.nil_append]

/-- C6: the serialized output is, for each entry in the builder's output
order, exactly the block the spec's templates prescribe (root entries
render `parents: []`, others a one-element block list), the blocks
concatenated in exactly the topological order. -/
theorem C6_serialized_format (lineages : LineageCollection)
    (out : List (String × HierarchyEntry))
    (hout : convert_to_silo_format lineages = some out) :
    generate_hierarchy_file out = String.join (out.map specBlock) ∧
    out.map Prod.fst = topological_sort lineages := by
  have hsh := convertList_entries lineages (topological_sort lineages) out hout
  have hblocks : ∀ e ∈ out, serializeEntry e.1 e.2 = specBlock e := by
    intro e he
    rcases hsh e he with ⟨ha, p, hp, hpar⟩
    obtain ⟨n, entry⟩ := e
    obtain ⟨al, pl⟩ := entry
    simp only at ha hpar
    subst ha
    by_cases hpn : p = "none"
    · subst hpn
      simp only [ne_eq, not_true_eq_false, if_neg, ite_false] at hpar
      rw [show pl = [] from by simpa using hpar]
      exact serializeEntry_spec_nil n
    · rw [show pl = [p] from by simpa [hpn] using hpar]
      exact serializeEntry_spec_one n p
  constructor
  · unfold generate_hierarchy_file
    exact congrArg String.join (List.map_congr_left hblocks)
  · exact convertList_names lineages (topological_sort lineages) out hout

theorem C6_witness :
    generate_hierarchy_file
        [("A", ⟨[], []⟩), ("A.1", ⟨[], ["A"]⟩), ("A.1.1", ⟨[], ["A.1"]⟩),
          ("A.2", ⟨[], ["A"]⟩)] =
      String.join
        ([("A", ⟨[], []⟩), ("A.1", ⟨[], ["A"]⟩), ("A.1.1", ⟨[], ["A.1"]⟩),
          ("A.2", ⟨[], ["A"]⟩)].map specBlock) :=
  (C6_serialized_format
    [("A", "none"), ("A.1", "A"), ("A.2", "A"), ("A.1.1", "A.1")]
    [("A", ⟨[], []⟩), ("A.1", ⟨[], ["A"]⟩), ("A.1.1", ⟨[], ["A.1"]⟩), ("A.2", ⟨[], ["A"]⟩)]
    (by decide)).1

/-- Helper for the loader: the folding loop errors whenever some record in
the remaining file list is missing its `name` field, from any accumulator
state. -/
theorem loadLoop_missing_name :
    ∀ (files : List RawRecord) (acc : List (String × RawRecord)),
      (∃ r ∈ files, r.name = none) →
      ∃ e, (files.foldlM
        (fun lineages data =>
          match data.name with
          | some n => Except.ok (dictInsert lineages n data)
          | none => Except.error "KeyError: name")
        acc : Except String (List (String × RawRecord))) = Except.error e := by
  intro files
  induction files with
  | nil =>
    intro acc h
    rcases h with ⟨r, hr, -⟩
    exact absurd hr (List.not_mem_nil r)
  | cons f fs ih =>
    intro acc h
    cases hf : f.name with
    | none =>
      refine ⟨"KeyError: name", ?_⟩
      simp only [List.foldlM, hf]
      rfl
    | some n =>
      have hfs : ∃ r ∈ fs, r.name = none := by
        rcases h with ⟨r, hr, hrn⟩
        rcases List.mem_cons.1 hr with rfl | hr
        · rw [hf] at hrn
          cases hrn
        · exact ⟨r, hr, hrn⟩
      rcases ih (dictInsert acc n f) hfs with ⟨e, he⟩
      refine ⟨e, ?_⟩
      simpa [List.foldlM, hf] using he

/-- C7 counterexample: a record missing only the `parent` field is loaded
successfully, so the loader does not fail on every record missing a
required field, contrary to the claim. -/
theorem C7_counterexample :
    load_lineage_files [⟨some "A", none⟩] = Except.ok [("A", ⟨some "A", none⟩)] := rfl

/-- C7 amended: the loader fails with an error exactly when a record is
missing its `name` field (never returning a collection); a record missing
only the `parent` field is loaded successfully, and its missing parent
can only fail later, in the builder. -/
theorem C7_missing_name_errors (files : List RawRecord)
    (h : ∃ r ∈ files, r.name = none) :
    ∃ e, load_lineage_files files = Except.error e :=
  loadLoop_missing_name files [] h

theorem C7_witness :
    ∃ e, load_lineage_files [⟨none, some "none"⟩] = Except.error e :=
  C7_missing_name_errors [⟨none, some "none"⟩]
    ⟨⟨none, some "none"⟩, List.mem_singleton.2 rfl, rfl⟩

/-- C8: on the spec's worked scenario the builder emits
`[A, A.1, A.1.1, A.2]` with the stated parents lists. -/
theorem C8_scenario :
    convert_to_silo_format
        [("A", "none"), ("A.1", "A"), ("A.2", "A"), ("A.1.1", "A.1")] =
      some [("A", ⟨[], []⟩), ("A.1", ⟨[], ["A"]⟩), ("A.1.1", ⟨[], ["A.1"]⟩),
        ("A.2", ⟨[], ["A"]⟩)] := by decide

/-- C9: for every input collection, the output of `topological_sort` has
no duplicate names, every output name is a key of the input, and
consequently `convert_to_silo_format` never fails a lookup: it always
returns a result. -/
theorem C9_sound_and_total (lineages : LineageCollection) :
    (topological_sort lineages).Nodup ∧
    (∀ n ∈ topological_sort lineages, n ∈ lineages.map Prod.fst) ∧
    ∃ out, convert_to_silo_format lineages = some out := by
  have hb := dfsFold_basic lineages (lineages.length + 1)
    (sortStrings (rootsOf lineages)) ([], [])
    (fun n hn => rootsOf_mem_keys (mem_sortStrings.1 hn))
    (fun x => Iff.rfl) List.nodup_nil
    (fun x hx => absurd hx (List.not_mem_nil x))
  have hnd : (topological_sort lineages).Nodup := by
    rw [topological_sort_eq]
    exact hb.2.1
  have hsub : ∀ n ∈ topological_sort lineages, n ∈ lineages.map Prod.fst := by
    rw [topological_sort_eq]
    exact hb.2.2
  refine ⟨hnd, hsub, ?_⟩
  exact convertList_total lineages (topological_sort lineages)
    (fun n hn => lookup_isSome_of_mem_keys (hsub n hn))

/-- C10: on a collection with unique names, every parent present or the
sentinel, and cycle-free parent chains (each chain reaches a root within
the trivially sufficient bound `length + 1`), `topological_sort` emits a
permutation of all the input names: no record is dropped. -/
theorem C10_completeness (lineages : LineageCollection)
    (hkeys : (lineages.map Prod.fst).Nodup)
    (hclosed : ∀ e ∈ lineages, e.2 = "none" ∨ e.2 ∈ lineages.map Prod.fst)
    (hacyc : ∀ n ∈ lineages.map Prod.fst,
      ancestryRooted lineages (lineages.length + 1) n = true) :
    (topological_sort lineages).Perm (lineages.map Prod.fst) := by
  have hcomp := dfsFold_complete lineages (lineages.length + 1)
    (sortStrings (rootsOf lineages)) ([], [])
    (fun n hn => rootsOf_mem_keys (mem_sortStrings.1 hn))
    List.nodup_nil (fun x hx => absurd hx (List.not_mem_nil x))
    (by simp)
  have hb := dfsFold_basic lineages (lineages.length + 1)
    (sortStrings (rootsOf lineages)) ([], [])
    (fun n hn => rootsOf_mem_keys (mem_sortStrings.1 hn))
    (fun x => Iff.rfl) List.nodup_nil
    (fun x hx => absurd hx (List.not_mem_nil x))
  set out := dfsFold (childrenOf lineages) (lineages.length + 1)
    (sortStrings (rootsOf lineages)) ([], []) with hout
  rcases hcomp with ⟨hnd1, hsub1, hcont, hclos⟩
  have hclos' : ∀ x ∈ out.1, ∀ c ∈ childrenOf lineages x, c ∈ out.1 := by
    intro x hx c hc
    exact hclos x hx (List.not_mem_nil x) c hc
  have hchain : ∀ (f : Nat) (n : String),
      ancestryRooted lineages f n = true → n ∈ out.1 := by
    intro f
    induction f with
    | zero =>
      intro n h
      simp [ancestryRooted] at h
    | succ f ihc =>
      intro n h
      simp only [ancestryRooted] at h
      cases hl : lineages.lookup n with
      | none => rw [hl] at h; cases h
      | some p =>
        rw [hl] at h
        by_cases hpn : p = "none"
        · subst hpn
          have hroot : n ∈ rootsOf lineages := mem_rootsOf.2 (lookup_mem hl)
          exact hcont n (mem_sortStrings.2 hroot)
        · have hbeq : (p == "none") = false := by simp [hpn]
          simp only [hbeq, Bool.false_eq_true, if_false] at h
          have hp : p ∈ out.1 := ihc p h
          have hnc : n ∈ childrenOf lineages p :=
            mem_childrenOf.2 ⟨lookup_mem hl, hpn⟩
          exact hclos' p hp n hnc
  have hmem : ∀ a, a ∈ out.2 ↔ a ∈ lineages.map Prod.fst := by
    intro a
    constructor
    · exact hb.2.2 a
    · intro ha
      exact (hb.1 a).1 (hchain (lineages.length + 1) a (hacyc a ha))
  have hts : topological_sort lineages = out.2 := topological_sort_eq lineages
  rw [hts]
  exact (List.perm_ext_iff_of_nodup hb.2.1 hkeys).2 hmem

theorem C10_witness :
    (topological_sort
        [("A", "none"), ("A.1", "A"), ("A.2", "A"), ("A.1.1", "A.1")]).Perm
      ([("A", "none"), ("A.1", "A"), ("A.2", "A"), ("A.1.1", "A.1")].map Prod.fst) :=
  C10_completeness [("A", "none"), ("A.1", "A"), ("A.2", "A"), ("A.1.1", "A.1")]
    (by decide) (by decide) (by decide)

/-! ### Order-theoretic facts about the string comparison and the sort -/

theorem char_eq_of_toNat_eq {a b : Char} (h : a.toNat = b.toNat) : a = b := by
  unfold Char.toNat at h
  exact Char.eq_of_val_eq (UInt32.toNat.inj h)

theorem charListLe_total : ∀ (l1 l2 : List Char),
    charListLe l1 l2 = true ∨ charListLe l2 l1 = true := by
  intro l1
  induction l1 with
  | nil => intro l2; left; rfl
  | cons a as ih =>
    intro l2
    cases l2 with
    | nil => right; rfl
    | cons b bs =>
      by_cases hab : a.toNat < b.toNat
      · left
        simp [charListLe, hab]
      · by_cases hba : b.toNat < a.toNat
        · right
          simp [charListLe, hba]
        · rcases ih bs with h | h
          · left
            simp [charListLe, hab, hba, h]
          · right
            simp [charListLe, hab, hba, h]

theorem charListLe_trans : ∀ (l1 l2 l3 : List Char),
    charListLe l1 l2 = true → charListLe l2 l3 = true →
    charListLe l1 l3 = true := by
  intro l1
  induction l1 with
  | nil => intro l2 l3 _ _; rfl
  | cons a as ih =>
    intro l2 l3 h12 h23
    cases l2 with
    | nil => simp [charListLe] at h12
    | cons b bs =>
      cases l3 with
      | nil => simp [charListLe] at h23
      | cons c cs =>
        simp only [charListLe] at h12 h23 ⊢
        by_cases hab : a.toNat < b.toNat
        · by_cases hbc : b.toNat < c.toNat
          · rw [if_pos (Nat.lt_trans hab hbc)]
          · by_cases hcb : c.toNat < b.toNat
            · rw [if_neg hbc, if_pos hcb] at h23
              cases h23
            · rw [if_pos (show a.toNat < c.toNat by omega)]
        · by_cases hba : b.toNat < a.toNat
          · rw [if_neg hab, if_pos hba] at h12
            cases h12
          · rw [if_neg hab, if_neg hba] at h12
            by_cases hbc : b.toNat < c.toNat
            · rw [if_pos (show a.toNat < c.toNat by omega)]
            · by_cases hcb : c.toNat < b.toNat
              · rw [if_neg hbc, if_pos hcb] at h23
                cases h23
              · rw [if_neg hbc, if_neg hcb] at h23
                rw [if_neg (show ¬ a.toNat < c.toNat by omega),
                  if_neg (show ¬ c.toNat < a.toNat by omega)]
                exact ih bs cs h12 h23

theorem charListLe_antisymm : ∀ (l1 l2 : List Char),
    charListLe l1 l2 = true → charListLe l2 l1 = true → l1 = l2 := by
  intro l1
  induction l1 with
  | nil =>
    intro l2 _ h21
    cases l2 with
    | nil => rfl
    | cons b bs => simp [charListLe] at h21
  | cons a as ih =>
    intro l2 h12 h21
    cases l2 with
    | nil => simp [charListLe] at h12
    | cons b bs =>
      simp only [charListLe] at h12 h21
      by_cases hab : a.toNat < b.toNat
      · rw [if_neg (show ¬ b.toNat < a.toNat by omega), if_pos hab] at h21
        cases h21
      · by_cases hba : b.toNat < a.toNat
        · rw [if_neg hab, if_pos hba] at h12
          cases h12
        · rw [if_neg hab, if_neg hba] at h12
          rw [if_neg hba, if_neg hab] at h21
          have heq : a = b := char_eq_of_toNat_eq (by omega)
          rw [heq, ih bs h12 h21]

theorem strLe_total (a b : String) : strLe a b = true ∨ strLe b a = true :=
  charListLe_total a.data b.data

theorem strLe_trans {a b c : String} (h1 : strLe a b = true)
    (h2 : strLe b c = true) : strLe a c = true :=
  charListLe_trans a.data b.data c.data h1 h2

theorem strLe_antisymm {a b : String} (h1 : strLe a b = true)
    (h2 : strLe b a = true) : a = b :=
  string_data_eq (charListLe_antisymm a.data b.data h1 h2)

theorem insertSorted_perm (a : String) : ∀ l : List String,
    (insertSorted a l).Perm (a :: l) := by
  intro l
  induction l with
  | nil => exact List.Perm.refl _
  | cons b bs ih =>
    simp only [insertSorted]
    split
    · exact List.Perm.refl _
    · exact (List.Perm.cons b ih).trans (List.Perm.swap a b bs)

theorem sortStrings_perm : ∀ l : List String, (sortStrings l).Perm l := by
  intro l
  induction l with
  | nil => exact List.Perm.refl _
  | cons b bs ih =>
    show (insertSorted b (sortStrings bs)).Perm (b :: bs)
    exact (insertSorted_perm b (sortStrings bs)).trans (List.Perm.cons b ih)

theorem sortStrings_nodup {l : List String} (h : l.Nodup) :
    (sortStrings l).Nodup :=
  (sortStrings_perm l).nodup_iff.2 h

theorem insertSorted_pairwise {a : String} {l : List String}
    (h : l.Pairwise (fun x y => strLe x y = true)) :
    (insertSorted a l).Pairwise (fun x y => strLe x y = true) := by
  induction l with
  | nil => simp [insertSorted]
  | cons b bs ih =>
    rcases List.pairwise_cons.1 h with ⟨hb, hbs⟩
    simp only [insertSorted]
    split
    · rename_i hab
      refine List.pairwise_cons.2 ⟨?_, h⟩
      intro x hx
      rcases List.mem_cons.1 hx with rfl | hx
      · exact hab
      · exact strLe_trans hab (hb x hx)
    · rename_i hab
      have hba : strLe b a = true := by
        rcases strLe_total a b with h' | h'
        · exact absurd h' hab
        · exact h'
      refine List.pairwise_cons.2 ⟨?_, ih hbs⟩
      intro x hx
      rcases mem_insertSorted.1 hx with rfl | hx
      · exact hba
      · exact hb x hx

theorem sortStrings_pairwise : ∀ l : List String,
    (sortStrings l).Pairwise (fun x y => strLe x y = true) := by
  intro l
  induction l with
  | nil => simp [sortStrings]
  | cons b bs ih =>
    show (insertSorted b (sortStrings bs)).Pairwise _
    exact insertSorted_pairwise ih

theorem sorted_split {l : List String}
    (hsort : l.Pairwise (fun x y => strLe x y = true))
    {c1 c2 : String} (h1 : c1 ∈ l) (hne : c1 ≠ c2)
    (hle : strLe c1 c2 = true) :
    ∃ m1 m2, l = m1 ++ c1 :: m2 ∧ c2 ∉ m1 := by
  rcases List.append_of_mem h1 with ⟨m1, m2, rfl⟩
  refine ⟨m1, m2, rfl, ?_⟩
  intro hc2
  have hp := (List.pairwise_append.1 hsort).2.2 c2 hc2 c1 (List.mem_cons_self c1 m2)
  exact hne (strLe_antisymm hle hp)

theorem rootsOf_nodup {lineages : LineageCollection}
    (hkeys : (lineages.map Prod.fst).Nodup) : (rootsOf lineages).Nodup :=
  hkeys.sublist ((List.filter_sublist lineages).map Prod.fst)

theorem childrenOf_nodup {lineages : LineageCollection}
    (hkeys : (lineages.map Prod.fst).Nodup) (p : String) :
    (childrenOf lineages p).Nodup :=
  hkeys.sublist ((List.filter_sublist lineages).map Prod.fst)

/-! ### More index lemmas -/

theorem idxIn_eq_length_of_not_mem {a : String} {l : List String} (h : a ∉ l) :
    idxIn a l = l.length := by
  induction l with
  | nil => rfl
  | cons b bs ih =>
    simp only [idxIn, List.length_cons]
    split
    · rename_i hba
      exact absurd (hba ▸ List.mem_cons_self b bs) h
    · exact congrArg (· + 1) (ih (fun hm => h (List.mem_cons_of_mem _ hm)))

theorem idxIn_append_of_not_mem {a : String} {l t : List String} (h : a ∉ l) :
    idxIn a (l ++ t) = l.length + idxIn a t := by
  induction l with
  | nil => simp [idxIn]
  | cons b bs ih =>
    simp only [List.cons_append, idxIn, List.length_cons]
    split
    · rename_i hba
      exact absurd (hba ▸ List.mem_cons_self b bs) h
    · have h2 : idxIn a (bs.append t) = bs.length + idxIn a t :=
        ih (fun hm => h (List.mem_cons_of_mem _ hm))
      omega

theorem idxIn_lt_extend {c1 c2 : String} {A t : List String}
    (hc1 : c1 ∈ A) (h : idxIn c1 A < idxIn c2 A) :
    idxIn c1 (A ++ t) < idxIn c2 (A ++ t) := by
  rw [idxIn_append_left hc1]
  by_cases hc2 : c2 ∈ A
  · rw [idxIn_append_left hc2]
    exact h
  · rw [idxIn_append_of_not_mem hc2]
    have := idxIn_lt_length hc1
    omega

theorem visited_length_le (lineages : LineageCollection) {v : List String}
    (hnd : v.Nodup) (hsub : ∀ x ∈ v, x ∈ lineages.map Prod.fst) :
    v.length ≤ lineages.length := by
  have hcard : v.toFinset.card = v.length := List.toFinset_card_of_nodup hnd
  have hsubF : v.toFinset ⊆ (lineages.map Prod.fst).toFinset := by
    intro x hx
    exact List.mem_toFinset.2 (hsub x (List.mem_toFinset.1 hx))
  have hle1 := Finset.card_le_card hsubF
  have hle2 := List.toFinset_card_le (lineages.map Prod.fst)
  have hlen : (lineages.map Prod.fst).length = lineages.length := List.length_map _ _
  omega

theorem dfsFold_zero (children : String → List String) :
    ∀ (ns : List String) (st : List String × List String),
      dfsFold children 0 ns st = st := by
  intro ns
  induction ns with
  | nil => intro st; rfl
  | cons n ns ih =>
    intro st
    have hstep : dfsFold children 0 (n :: ns) st = dfsFold children 0 ns st := rfl
    rw [hstep]
    exact ih st

/-! ### Sibling visit order in the traversal -/

theorem dfsFold_avoid (lineages : LineageCollection) :
    ∀ (fuel : Nat) (ns : List String) (st : List String × List String)
      (v : String),
      v ∉ st.1 → v ∉ ns →
      (∀ y, v ∈ childrenOf lineages y →
        y ∈ (dfsFold (childrenOf lineages) fuel ns st).1 → y ∈ st.1) →
      v ∉ (dfsFold (childrenOf lineages) fuel ns st).1 := by
  intro fuel
  induction fuel with
  | zero =>
    intro ns st v hv _ _
    rw [dfsFold_zero]
    exact hv
  | succ fuel ihf =>
    intro ns
    induction ns with
    | nil => intro st v hv _ _; exact hv
    | cons n ns ihn =>
      intro st v hv hns hprot
      have hstep : dfsFold (childrenOf lineages) (fuel + 1) (n :: ns) st =
          dfsFold (childrenOf lineages) (fuel + 1) ns
            (dfs (childrenOf lineages) (fuel + 1) n st) := rfl
      rw [hstep] at hprot ⊢
      by_cases hvn : n ∈ st.1
      · have hid : dfs (childrenOf lineages) (fuel + 1) n st = st := by
          simp [dfs, hvn]
        rw [hid] at hprot ⊢
        exact ihn st v hv (fun h => hns (List.mem_cons_of_mem _ h)) hprot
      · have hd : dfs (childrenOf lineages) (fuel + 1) n st =
            dfsFold (childrenOf lineages) fuel
              (sortStrings (childrenOf lineages n)) (n :: st.1, st.2 ++ [n]) := by
          simp [dfs, hvn, dfsFold]
        rw [hd] at hprot ⊢
        rcases dfsFold_ext (childrenOf lineages) fuel
          (sortStrings (childrenOf lineages n)) (n :: st.1, st.2 ++ [n]) with ⟨u1, t1, hext1⟩
        rcases dfsFold_ext (childrenOf lineages) (fuel + 1) ns
          (dfsFold (childrenOf lineages) fuel
            (sortStrings (childrenOf lineages n)) (n :: st.1, st.2 ++ [n])) with ⟨u2, t2, hext2⟩
      
        have hmidmem : ∀ w, w ∈ (dfsFold (childrenOf lineages) fuel
            (sortStrings (childrenOf lineages n)) (n :: st.1, st.2 ++ [n])).1 →
            w ∈ (dfsFold (childrenOf lineages) (fuel + 1) ns
              (dfsFold (childrenOf lineages) fuel
                (sortStrings (childrenOf lineages n)) (n :: st.1, st.2 ++ [n]))).1 := by
          intro w hw
          rw [hext2]
          exact List.mem_append_right _ hw
        have hvne : v ≠ n := fun h => hns (h ▸ List.mem_cons_self n ns)
        have hvmid : v ∉ (dfsFold (childrenOf lineages) fuel
            (sortStrings (childrenOf lineages n)) (n :: st.1, st.2 ++ [n])).1 := by
          refine ihf (sortStrings (childrenOf lineages n)) (n :: st.1, st.2 ++ [n]) v ?_ ?_ ?_
          · intro h
            rcases List.mem_cons.1 h with h | h
            · exact hvne h
            · exact hv h
          · intro h
            have hch : v ∈ childrenOf lineages n := mem_sortStrings.1 h
            have hnin : n ∈ (dfsFold (childrenOf lineages) (fuel + 1) ns
                (dfsFold (childrenOf lineages) fuel
                  (sortStrings (childrenOf lineages n)) (n :: st.1, st.2 ++ [n]))).1 := by
              refine hmidmem n ?_
              rw [hext1]
              exact List.mem_append_right _ (List.mem_cons_self n st.1)
            exact hvn (hprot n hch hnin)
          · intro y hch hy
            exact List.mem_cons_of_mem _ (hprot y hch (hmidmem y hy))
        refine ihn _ v hvmid (fun h => hns (List.mem_cons_of_mem _ h)) ?_
        intro y hch hy
        have hyst : y ∈ st.1 := hprot y hch hy
        rw [hext1]
        exact List.mem_append_right _ (List.mem_cons_of_mem _ hyst)

theorem dfsFold_order_final (children : String → List String)
    (fuel : Nat) (ns : List String) (st : List String × List String)
    {c1 c2 : String} (h1 : c1 ∈ st.2) (h2 : c2 ∉ st.2) :
    c1 ∈ (dfsFold children fuel ns st).2 ∧
    idxIn c1 (dfsFold children fuel ns st).2 <
      idxIn c2 (dfsFold children fuel ns st).2 := by
  rcases dfsFold_ext children fuel ns st with ⟨u, t, hext⟩
  rw [hext]
  refine ⟨List.mem_append_left _ h1, ?_⟩
  rw [idxIn_append_left h1, idxIn_append_of_not_mem h2]
  have := idxIn_lt_length h1
  omega

theorem dfsFold_order (lineages : LineageCollection) :
    ∀ (fuel : Nat) (l1 l2 : List String) (c1 c2 : String)
      (st : List String × List String),
      (∀ w, w ∈ st.1 ↔ w ∈ st.2) →
      st.1.Nodup → st.2.Nodup →
      (∀ w ∈ st.1, w ∈ lineages.map Prod.fst) →
      (∀ w ∈ st.2, w ∈ lineages.map Prod.fst) →
      (∀ m ∈ l1 ++ c1 :: l2, m ∈ lineages.map Prod.fst) →
      lineages.length + 1 ≤ fuel + st.1.length →
      c2 ∉ st.1 → c2 ∉ l1 → c2 ≠ c1 →
      (∀ y, c2 ∈ childrenOf lineages y → y ∈ st.1) →
      c1 ∈ (dfsFold (childrenOf lineages) fuel (l1 ++ c1 :: l2) st).2 ∧
      idxIn c1 (dfsFold (childrenOf lineages) fuel (l1 ++ c1 :: l2) st).2 <
        idxIn c2 (dfsFold (childrenOf lineages) fuel (l1 ++ c1 :: l2) st).2 := by
  intro fuel
  induction fuel with
  | zero =>
    intro l1 l2 c1 c2 st hsync hnd1 hnd2 hsub1 hsub2 hks hfuel hc2st hc2l1 hc2c1 hprot
    exfalso
    have := visited_length_le lineages hnd1 hsub1
    omega
  | succ fuel ihf =>
    intro l1
    induction l1 with
    | nil =>
      intro l2 c1 c2 st hsync hnd1 hnd2 hsub1 hsub2 hks hfuel hc2st hc2l1 hc2c1 hprot
      simp only [List.nil_append] at hks ⊢
      by_cases hc1v : c1 ∈ st.1
      · exact dfsFold_order_final (childrenOf lineages) (fuel + 1) (c1 :: l2) st
          ((hsync c1).1 hc1v) (fun h => hc2st ((hsync c2).2 h))
      · have hstep : dfsFold (childrenOf lineages) (fuel + 1) (c1 :: l2) st =
            dfsFold (childrenOf lineages) (fuel + 1) l2
              (dfs (childrenOf lineages) (fuel + 1) c1 st) := rfl
        have hd : dfs (childrenOf lineages) (fuel + 1) c1 st =
            dfsFold (childrenOf lineages) fuel
              (sortStrings (childrenOf lineages c1)) (c1 :: st.1, st.2 ++ [c1]) := by
          simp [dfs, hc1v, dfsFold]
        rw [hstep, hd]
        rcases dfsFold_ext (childrenOf lineages) fuel
          (sortStrings (childrenOf lineages c1)) (c1 :: st.1, st.2 ++ [c1]) with
          ⟨u1, t1, hext1⟩
        have hc1mid : c1 ∈ (dfsFold (childrenOf lineages) fuel
            (sortStrings (childrenOf lineages c1)) (c1 :: st.1, st.2 ++ [c1])).2 := by
          rw [hext1]
          exact List.mem_append_left _
            (List.mem_append_right _ (List.mem_singleton.2 rfl))
        have hc2mid1 : c2 ∉ (dfsFold (childrenOf lineages) fuel
            (sortStrings (childrenOf lineages c1)) (c1 :: st.1, st.2 ++ [c1])).1 := by
          refine dfsFold_avoid lineages fuel _ _ c2 ?_ ?_ ?_
          · intro h
            rcases List.mem_cons.1 h with h | h
            · exact hc2c1 h
            · exact hc2st h
          · intro h
            exact hc1v (hprot c1 (mem_sortStrings.1 h))
          · intro y hch _
            exact List.mem_cons_of_mem _ (hprot y hch)
        have hsync' : ∀ w, w ∈ c1 :: st.1 ↔ w ∈ st.2 ++ [c1] := by
          intro w
          simp only [List.mem_cons, List.mem_append, List.mem_singleton, hsync w]
          tauto
        have hc1st2 : c1 ∉ st.2 := fun h => hc1v ((hsync c1).2 h)
        have hnd2' : (st.2 ++ [c1]).Nodup := by
          simp [List.nodup_append, hnd2, hc1st2]
        have hsub2' : ∀ w ∈ st.2 ++ [c1], w ∈ lineages.map Prod.fst := by
          intro w hw
          rcases List.mem_append.1 hw with hw | hw
          · exact hsub2 w hw
          · rw [List.mem_singleton.1 hw]
            exact hks c1 (List.mem_cons_self c1 l2)
        have hb := dfsFold_basic lineages fuel
          (sortStrings (childrenOf lineages c1)) (c1 :: st.1, st.2 ++ [c1])
          (fun c hc => childrenOf_mem_keys (mem_sortStrings.1 hc)) hsync' hnd2' hsub2'
        have hc2mid2 : c2 ∉ (dfsFold (childrenOf lineages) fuel
            (sortStrings (childrenOf lineages c1)) (c1 :: st.1, st.2 ++ [c1])).2 :=
          fun h => hc2mid1 ((hb.1 c2).2 h)
        exact dfsFold_order_final (childrenOf lineages) (fuel + 1) l2 _ hc1mid hc2mid2
    | cons n l1' ihn =>
      intro l2 c1 c2 st hsync hnd1 hnd2 hsub1 hsub2 hks hfuel hc2st hc2l1 hc2c1 hprot
      have hstep : dfsFold (childrenOf lineages) (fuel + 1) ((n :: l1') ++ c1 :: l2) st =
          dfsFold (childrenOf lineages) (fuel + 1) (l1' ++ c1 :: l2)
            (dfs (childrenOf lineages) (fuel + 1) n st) := rfl
      rw [hstep]
      have hksrest : ∀ m ∈ l1' ++ c1 :: l2, m ∈ lineages.map Prod.fst :=
        fun m hm => hks m (List.mem_cons_of_mem _ hm)
      have hc2l1' : c2 ∉ l1' := fun h => hc2l1 (List.mem_cons_of_mem _ h)
      by_cases hvn : n ∈ st.1
      · have hid : dfs (childrenOf lineages) (fuel + 1) n st = st := by
          simp [dfs, hvn]
        rw [hid]
        exact ihn l2 c1 c2 st hsync hnd1 hnd2 hsub1 hsub2 hksrest hfuel
          hc2st hc2l1' hc2c1 hprot
      · have hd : dfs (childrenOf lineages) (fuel + 1) n st =
            dfsFold (childrenOf lineages) fuel
              (sortStrings (childrenOf lineages n)) (n :: st.1, st.2 ++ [n]) := by
          simp [dfs, hvn, dfsFold]
        rw [hd]
        have hnk : n ∈ lineages.map Prod.fst := hks n (List.mem_cons_self _ _)
        have hn2 : n ∉ st.2 := fun h => hvn ((hsync n).2 h)
        have hsync' : ∀ w, w ∈ n :: st.1 ↔ w ∈ st.2 ++ [n] := by
          intro w
          simp only [List.mem_cons, List.mem_append, List.mem_singleton, hsync w]
          tauto
        have hnd1' : (n :: st.1).Nodup := List.nodup_cons.2 ⟨hvn, hnd1⟩
        have hnd2' : (st.2 ++ [n]).Nodup := by
          simp [List.nodup_append, hnd2, hn2]
        have hsub1' : ∀ w ∈ n :: st.1, w ∈ lineages.map Prod.fst := by
          intro w hw
          rcases List.mem_cons.1 hw with rfl | hw
          · exact hnk
          · exact hsub1 w hw
        have hsub2' : ∀ w ∈ st.2 ++ [n], w ∈ lineages.map Prod.fst := by
          intro w hw
          rcases List.mem_append.1 hw with hw | hw
          · exact hsub2 w hw
          · rw [List.mem_singleton.1 hw]
            exact hnk
        have hch : ∀ c ∈ sortStrings (childrenOf lineages n),
            c ∈ lineages.map Prod.fst :=
          fun c hc => childrenOf_mem_keys (mem_sortStrings.1 hc)
        have hb := dfsFold_basic lineages fuel
          (sortStrings (childrenOf lineages n)) (n :: st.1, st.2 ++ [n])
          hch hsync' hnd2' hsub2'
        have hc := dfsFold_complete lineages fuel
          (sortStrings (childrenOf lineages n)) (n :: st.1, st.2 ++ [n])
          hch hnd1' hsub1' (by simp only [List.length_cons]; omega)
        rcases dfsFold_ext (childrenOf lineages) fuel
          (sortStrings (childrenOf lineages n)) (n :: st.1, st.2 ++ [n]) with
          ⟨u1, t1, hext1⟩
        have hfuel' : lineages.length + 1 ≤ (fuel + 1) +
            (dfsFold (childrenOf lineages) fuel
              (sortStrings (childrenOf lineages n)) (n :: st.1, st.2 ++ [n])).1.length := by
          rw [hext1]
          simp only [List.length_append, List.length_cons]
          omega
        have hc2n : c2 ≠ n := fun h => hc2l1 (h ▸ List.mem_cons_self n l1')
        have hc2mid1 : c2 ∉ (dfsFold (childrenOf lineages) fuel
            (sortStrings (childrenOf lineages n)) (n :: st.1, st.2 ++ [n])).1 := by
          refine dfsFold_avoid lineages fuel _ _ c2 ?_ ?_ ?_
          · intro h
            rcases List.mem_cons.1 h with h | h
            · exact hc2n h
            · exact hc2st h
          · intro h
            exact hvn (hprot n (mem_sortStrings.1 h))
          · intro y hch2 _
            exact List.mem_cons_of_mem _ (hprot y hch2)
        have hprot' : ∀ y, c2 ∈ childrenOf lineages y →
            y ∈ (dfsFold (childrenOf lineages) fuel
              (sortStrings (childrenOf lineages n)) (n :: st.1, st.2 ++ [n])).1 := by
          intro y hch2
          rw [hext1]
          exact List.mem_append_right _ (List.mem_cons_of_mem _ (hprot y hch2))
        exact ihn l2 c1 c2 _ hb.1 hc.1 hb.2.1 hc.2.1 hb.2.2 hksrest hfuel'
          hc2mid1 hc2l1' hc2c1 hprot'

theorem no_self_parent_reachable (lineages : LineageCollection)
    (hkeys : (lineages.map Prod.fst).Nodup) :
    ∀ y, Reachable lineages y → y ≠ "none" → (y, y) ∈ lineages → False := by
  intro y hreach
  induction hreach with
  | root n hmem =>
    intro hne hself
    have h1 := lookup_of_mem_nodup hkeys hmem
    have h2 := lookup_of_mem_nodup hkeys hself
    rw [h1] at h2
    cases h2
    exact hne rfl
  | child n p hp hmem hpne ih =>
    intro hne hself
    have h1 := lookup_of_mem_nodup hkeys hmem
    have h2 := lookup_of_mem_nodup hkeys hself
    rw [h1] at h2
    cases h2
    exact ih hpne hmem

theorem parent_unique {lineages : LineageCollection}
    (hkeys : (lineages.map Prod.fst).Nodup) {c x y : String}
    (h1 : (c, x) ∈ lineages) (h2 : (c, y) ∈ lineages) : x = y := by
  have e1 := lookup_of_mem_nodup hkeys h1
  have e2 := lookup_of_mem_nodup hkeys h2
  rw [e1] at e2
  cases e2
  rfl

theorem dfsFold_children_order (lineages : LineageCollection)
    (hkeys : (lineages.map Prod.fst).Nodup) :
    ∀ (fuel : Nat) (ns : List String) (st : List String × List String)
      (x c1 c2 : String),
      (∀ w, w ∈ st.1 ↔ w ∈ st.2) →
      st.1.Nodup → st.2.Nodup →
      (∀ w ∈ st.1, w ∈ lineages.map Prod.fst) →
      (∀ w ∈ st.2, w ∈ lineages.map Prod.fst) →
      (∀ m ∈ ns, m ∈ lineages.map Prod.fst) →
      lineages.length + 1 ≤ fuel + st.1.length →
      x ∈ (dfsFold (childrenOf lineages) fuel ns st).1 →
      x ∉ st.1 →
      (c1, x) ∈ lineages → (c2, x) ∈ lineages → x ≠ "none" →
      c1 ≠ c2 → strLe c1 c2 = true →
      c1 ≠ x → c2 ≠ x →
      c1 ∉ st.1 → c2 ∉ st.1 → c1 ∉ ns → c2 ∉ ns →
      c1 ∈ (dfsFold (childrenOf lineages) fuel ns st).2 ∧
      idxIn c1 (dfsFold (childrenOf lineages) fuel ns st).2 <
        idxIn c2 (dfsFold (childrenOf lineages) fuel ns st).2 := by
  intro fuel
  induction fuel with
  | zero =>
    intro ns st x c1 c2 _ _ _ _ _ _ _ hx hxst _ _ _ _ _ _ _ _ _ _ _
    rw [dfsFold_zero] at hx
    exact absurd hx hxst
  | succ fuel ihf =>
    intro ns
    induction ns with
    | nil =>
      intro st x c1 c2 _ _ _ _ _ _ _ hx hxst _ _ _ _ _ _ _ _ _ _ _
      exact absurd hx hxst
    | cons n ns ihn =>
      intro st x c1 c2 hsync hnd1 hnd2 hsub1 hsub2 hks hfuel hx hxst
        hc1x hc2x hxne hc1c2 hle hc1nx hc2nx hc1st hc2st hc1ns hc2ns
      have hstep : dfsFold (childrenOf lineages) (fuel + 1) (n :: ns) st =
          dfsFold (childrenOf lineages) (fuel + 1) ns
            (dfs (childrenOf lineages) (fuel + 1) n st) := rfl
      rw [hstep] at hx ⊢
      have hksrest : ∀ m ∈ ns, m ∈ lineages.map Prod.fst :=
        fun m hm => hks m (List.mem_cons_of_mem _ hm)
      have hc1ns' : c1 ∉ ns := fun h => hc1ns (List.mem_cons_of_mem _ h)
      have hc2ns' : c2 ∉ ns := fun h => hc2ns (List.mem_cons_of_mem _ h)
      by_cases hvn : n ∈ st.1
      · have hid : dfs (childrenOf lineages) (fuel + 1) n st = st := by
          simp [dfs, hvn]
        rw [hid] at hx ⊢
        exact ihn st x c1 c2 hsync hnd1 hnd2 hsub1 hsub2 hksrest hfuel hx hxst
          hc1x hc2x hxne hc1c2 hle hc1nx hc2nx hc1st hc2st hc1ns' hc2ns'
      · have hd : dfs (childrenOf lineages) (fuel + 1) n st =
            dfsFold (childrenOf lineages) fuel
              (sortStrings (childrenOf lineages n)) (n :: st.1, st.2 ++ [n]) := by
          simp [dfs, hvn, dfsFold]
        rw [hd] at hx ⊢
        have hnk : n ∈ lineages.map Prod.fst := hks n (List.mem_cons_self _ _)
        have hn2 : n ∉ st.2 := fun h => hvn ((hsync n).2 h)
        have hsync' : ∀ w, w ∈ n :: st.1 ↔ w ∈ st.2 ++ [n] := by
          intro w
          simp only [List.mem_cons, List.mem_append, List.mem_singleton, hsync w]
          tauto
        have hnd1' : (n :: st.1).Nodup := List.nodup_cons.2 ⟨hvn, hnd1⟩
        have hnd2' : (st.2 ++ [n]).Nodup := by
          simp [List.nodup_append, hnd2, hn2]
        have hsub1' : ∀ w ∈ n :: st.1, w ∈ lineages.map Prod.fst := by
          intro w hw
          rcases List.mem_cons.1 hw with rfl | hw
          · exact hnk
          · exact hsub1 w hw
        have hsub2' : ∀ w ∈ st.2 ++ [n], w ∈ lineages.map Prod.fst := by
          intro w hw
          rcases List.mem_append.1 hw with hw | hw
          · exact hsub2 w hw
          · rw [List.mem_singleton.1 hw]
            exact hnk
        have hch : ∀ c ∈ sortStrings (childrenOf lineages n),
            c ∈ lineages.map Prod.fst :=
          fun c hc => childrenOf_mem_keys (mem_sortStrings.1 hc)
        have hfuelmid : lineages.length + 1 ≤ fuel + (n :: st.1).length := by
          simp only [List.length_cons]
          omega
        by_cases hxn : x = n
        · subst hxn
          have hc1ch : c1 ∈ sortStrings (childrenOf lineages x) :=
            mem_sortStrings.2 (mem_childrenOf.2 ⟨hc1x, hxne⟩)
          rcases sorted_split (sortStrings_pairwise (childrenOf lineages x))
            hc1ch hc1c2 hle with ⟨m1, m2, hcs, hc2m1⟩
          rw [hcs] at hx ⊢
          have hc2st' : c2 ∉ (x :: st.1 : List String) := by
            intro h
            rcases List.mem_cons.1 h with h | h
            · exact hc2nx h
            · exact hc2st h
          have hprot : ∀ y, c2 ∈ childrenOf lineages y →
              y ∈ (x :: st.1 : List String) := by
            intro y hch2
            rcases mem_childrenOf.1 hch2 with ⟨hmem, -⟩
            have hxy : x = y := parent_unique hkeys hc2x hmem
            rw [← hxy]
            exact List.mem_cons_self x st.1
          have hord := dfsFold_order lineages fuel m1 m2 c1 c2
            (x :: st.1, st.2 ++ [x]) hsync' hnd1' hnd2' hsub1' hsub2'
            (by rw [← hcs]; exact hch) hfuelmid hc2st' hc2m1
            (fun h => hc1c2 h.symm) hprot
          rcases dfsFold_ext (childrenOf lineages) (fuel + 1) ns
            (dfsFold (childrenOf lineages) fuel (m1 ++ c1 :: m2)
              (x :: st.1, st.2 ++ [x])) with ⟨u2, t2, hext2⟩
          rw [hext2]
          exact ⟨List.mem_append_left _ hord.1, idxIn_lt_extend hord.1 hord.2⟩
        · have hb := dfsFold_basic lineages fuel
            (sortStrings (childrenOf lineages n)) (n :: st.1, st.2 ++ [n])
            hch hsync' hnd2' hsub2'
          have hc := dfsFold_complete lineages fuel
            (sortStrings (childrenOf lineages n)) (n :: st.1, st.2 ++ [n])
            hch hnd1' hsub1' hfuelmid
          rcases dfsFold_ext (childrenOf lineages) fuel
            (sortStrings (childrenOf lineages n)) (n :: st.1, st.2 ++ [n]) with
            ⟨u1, t1, hext1⟩
          rcases dfsFold_ext (childrenOf lineages) (fuel + 1) ns
            (dfsFold (childrenOf lineages) fuel
              (sortStrings (childrenOf lineages n)) (n :: st.1, st.2 ++ [n])) with
            ⟨u2, t2, hext2⟩
          have hc1nn : c1 ∉ sortStrings (childrenOf lineages n) := by
            intro h
            rcases mem_childrenOf.1 (mem_sortStrings.1 h) with ⟨hmem, -⟩
            exact hxn (parent_unique hkeys hc1x hmem)
          have hc2nn : c2 ∉ sortStrings (childrenOf lineages n) := by
            intro h
            rcases mem_childrenOf.1 (mem_sortStrings.1 h) with ⟨hmem, -⟩
            exact hxn (parent_unique hkeys hc2x hmem)
          have hc1n : c1 ≠ n := fun h => hc1ns (h ▸ List.mem_cons_self n ns)
          have hc2n : c2 ≠ n := fun h => hc2ns (h ▸ List.mem_cons_self n ns)
          have hc1st' : c1 ∉ (n :: st.1 : List String) := by
            intro h
            rcases List.mem_cons.1 h with h | h
            · exact hc1n h
            · exact hc1st h
          have hc2st' : c2 ∉ (n :: st.1 : List String) := by
            intro h
            rcases List.mem_cons.1 h with h | h
            · exact hc2n h
            · exact hc2st h
          have hxst' : x ∉ (n :: st.1 : List String) := by
            intro h
            rcases List.mem_cons.1 h with h | h
            · exact hxn h
            · exact hxst h
          by_cases hxmid : x ∈ (dfsFold (childrenOf lineages) fuel
              (sortStrings (childrenOf lineages n)) (n :: st.1, st.2 ++ [n])).1
          · have hihf := ihf (sortStrings (childrenOf lineages n))
              (n :: st.1, st.2 ++ [n]) x c1 c2 hsync' hnd1' hnd2' hsub1' hsub2'
              hch hfuelmid hxmid hxst' hc1x hc2x hxne hc1c2 hle hc1nx hc2nx
              hc1st' hc2st' hc1nn hc2nn
            rw [hext2]
            exact ⟨List.mem_append_left _ hihf.1, idxIn_lt_extend hihf.1 hihf.2⟩
          · have hfuel' : lineages.length + 1 ≤ (fuel + 1) +
                (dfsFold (childrenOf lineages) fuel
                  (sortStrings (childrenOf lineages n)) (n :: st.1, st.2 ++ [n])).1.length := by
              rw [hext1]
              simp only [List.length_append, List.length_cons]
              omega
            have hc1mid : c1 ∉ (dfsFold (childrenOf lineages) fuel
                (sortStrings (childrenOf lineages n)) (n :: st.1, st.2 ++ [n])).1 := by
              refine dfsFold_avoid lineages fuel _ _ c1 hc1st' hc1nn ?_
              intro y hch2 hymid
              rcases mem_childrenOf.1 hch2 with ⟨hmem, -⟩
              have hxy : x = y := parent_unique hkeys hc1x hmem
              rw [← hxy] at hymid
              exact absurd hymid hxmid
            have hc2mid : c2 ∉ (dfsFold (childrenOf lineages) fuel
                (sortStrings (childrenOf lineages n)) (n :: st.1, st.2 ++ [n])).1 := by
              refine dfsFold_avoid lineages fuel _ _ c2 hc2st' hc2nn ?_
              intro y hch2 hymid
              rcases mem_childrenOf.1 hch2 with ⟨hmem, -⟩
              have hxy : x = y := parent_unique hkeys hc2x hmem
              rw [← hxy] at hymid
              exact absurd hymid hxmid
            exact ihn _ x c1 c2 hb.1 hc.1 hb.2.1 hc.2.1 hb.2.2 hksrest hfuel'
              hx hxmid hc1x hc2x hxne hc1c2 hle hc1nx hc2nx hc1mid hc2mid
              hc1ns' hc2ns'

/-- C3: the builder breaks ties alphabetically at every level. For every
collection with the unique names a Python dict guarantees: any two
distinct roots are emitted in code-point order, and any two distinct
children of the same emitted (non-sentinel) node are emitted in
code-point order; moreover the spec's two examples compute as stated
(roots `{"B","A"}` give `["A","B"]`; root `"X"` with children `"Z"`,
`"Y"` gives `["X","Y","Z"]`). -/
theorem C3_alphabetical_tiebreak (lineages : LineageCollection)
    (hkeys : (lineages.map Prod.fst).Nodup) :
    (∀ r1 r2, (r1, "none") ∈ lineages → (r2, "none") ∈ lineages →
      r1 ≠ r2 → strLe r1 r2 = true →
      r1 ∈ topological_sort lineages ∧ r2 ∈ topological_sort lineages ∧
      idxIn r1 (topological_sort lineages) <
        idxIn r2 (topological_sort lineages)) ∧
    (∀ x c1 c2, x ∈ topological_sort lineages → x ≠ "none" →
      (c1, x) ∈ lineages → (c2, x) ∈ lineages →
      c1 ≠ c2 → strLe c1 c2 = true →
      c1 ∈ topological_sort lineages ∧ c2 ∈ topological_sort lineages ∧
      idxIn c1 (topological_sort lineages) <
        idxIn c2 (topological_sort lineages)) ∧
    topological_sort [("B", "none"), ("A", "none")] = ["A", "B"] ∧
    topological_sort [("X", "none"), ("Z", "X"), ("Y", "X")] = ["X", "Y", "Z"] := by
  have hrk : ∀ m ∈ sortStrings (rootsOf lineages), m ∈ lineages.map Prod.fst :=
    fun m hm => rootsOf_mem_keys (mem_sortStrings.1 hm)
  have hsync0 : ∀ w, w ∈ (([], []) : List String × List String).1 ↔
      w ∈ (([], []) : List String × List String).2 := fun w => Iff.rfl
  have hnil : ∀ w ∈ ([] : List String), w ∈ lineages.map Prod.fst :=
    fun w hw => absurd hw (List.not_mem_nil w)
  have hfuel0 : lineages.length + 1 ≤ (lineages.length + 1) +
      (([], []) : List String × List String).1.length := by simp
  have hb := dfsFold_basic lineages (lineages.length + 1)
    (sortStrings (rootsOf lineages)) ([], []) hrk hsync0 List.nodup_nil hnil
  have hcomp := dfsFold_complete lineages (lineages.length + 1)
    (sortStrings (rootsOf lineages)) ([], []) hrk List.nodup_nil hnil hfuel0
  refine ⟨?_, ?_, by decide, by decide⟩
  · intro r1 r2 hr1 hr2 hne hle
    have hm1 : r1 ∈ sortStrings (rootsOf lineages) :=
      mem_sortStrings.2 (mem_rootsOf.2 hr1)
    have hm2 : r2 ∈ sortStrings (rootsOf lineages) :=
      mem_sortStrings.2 (mem_rootsOf.2 hr2)
    have hmem1 : r1 ∈ topological_sort lineages := by
      rw [topological_sort_eq]
      exact (hb.1 r1).1 (hcomp.2.2.1 r1 hm1)
    have hmem2 : r2 ∈ topological_sort lineages := by
      rw [topological_sort_eq]
      exact (hb.1 r2).1 (hcomp.2.2.1 r2 hm2)
    refine ⟨hmem1, hmem2, ?_⟩
    rcases sorted_split (sortStrings_pairwise (rootsOf lineages)) hm1 hne hle with
      ⟨m1, m2, hdec, hr2m1⟩
    have hprot : ∀ y, r2 ∈ childrenOf lineages y →
        y ∈ (([], []) : List String × List String).1 := by
      intro y hch
      rcases mem_childrenOf.1 hch with ⟨hmem, hyne⟩
      have h1 := lookup_of_mem_nodup hkeys hr2
      have h2 := lookup_of_mem_nodup hkeys hmem
      rw [h1] at h2
      cases h2
      exact absurd rfl hyne
    have hord := dfsFold_order lineages (lineages.length + 1) m1 m2 r1 r2
      ([], []) hsync0 List.nodup_nil List.nodup_nil hnil hnil
      (by rw [← hdec]; exact hrk) hfuel0
      (fun h => absurd h (List.not_mem_nil r2)) hr2m1
      (fun h => hne h.symm) hprot
    rw [topological_sort_eq, hdec]
    exact hord.2
  · intro x c1 c2 hx hxne hc1 hc2 hne hle
    have hx1 : x ∈ (dfsFold (childrenOf lineages) (lineages.length + 1)
        (sortStrings (rootsOf lineages)) ([], [])).1 := by
      rw [topological_sort_eq] at hx
      exact (hb.1 x).2 hx
    have hreach : Reachable lineages x := by
      rw [topological_sort_eq] at hx
      refine dfsFold_reach lineages (lineages.length + 1)
        (sortStrings (rootsOf lineages)) ([], []) ?_
        (fun w hw => absurd hw (List.not_mem_nil w)) x hx
      intro m hm
      exact Reachable.root m (mem_rootsOf.1 (mem_sortStrings.1 hm))
    have hc1nx : c1 ≠ x := by
      intro h
      subst h
      exact no_self_parent_reachable lineages hkeys c1 hreach hxne hc1
    have hc2nx : c2 ≠ x := by
      intro h
      subst h
      exact no_self_parent_reachable lineages hkeys c2 hreach hxne hc2
    have hc1ns : c1 ∉ sortStrings (rootsOf lineages) := by
      intro h
      have hmemr : (c1, "none") ∈ lineages := mem_rootsOf.1 (mem_sortStrings.1 h)
      exact hxne (parent_unique hkeys hc1 hmemr)
    have hc2ns : c2 ∉ sortStrings (rootsOf lineages) := by
      intro h
      have hmemr : (c2, "none") ∈ lineages := mem_rootsOf.1 (mem_sortStrings.1 h)
      exact hxne (parent_unique hkeys hc2 hmemr)
    have hc1out : c1 ∈ (dfsFold (childrenOf lineages) (lineages.length + 1)
        (sortStrings (rootsOf lineages)) ([], [])).1 :=
      hcomp.2.2.2 x hx1 (List.not_mem_nil x) c1 (mem_childrenOf.2 ⟨hc1, hxne⟩)
    have hc2out : c2 ∈ (dfsFold (childrenOf lineages) (lineages.length + 1)
        (sortStrings (rootsOf lineages)) ([], [])).1 :=
      hcomp.2.2.2 x hx1 (List.not_mem_nil x) c2 (mem_childrenOf.2 ⟨hc2, hxne⟩)
    have hmm1 : c1 ∈ topological_sort lineages := by
      rw [topological_sort_eq]
      exact (hb.1 c1).1 hc1out
    have hmm2 : c2 ∈ topological_sort lineages := by
      rw [topological_sort_eq]
      exact (hb.1 c2).1 hc2out
    refine ⟨hmm1, hmm2, ?_⟩
    have hord := dfsFold_children_order lineages hkeys (lineages.length + 1)
      (sortStrings (rootsOf lineages)) ([], []) x c1 c2
      hsync0 List.nodup_nil List.nodup_nil hnil hnil hrk hfuel0
      hx1 (List.not_mem_nil x) hc1 hc2 hxne hne hle hc1nx hc2nx
      (List.not_mem_nil c1) (List.not_mem_nil c2) hc1ns hc2ns
    rw [topological_sort_eq]
    exact hord.2

theorem C3_witness :
    "Y" ∈ topological_sort [("X", "none"), ("Z", "X"), ("Y", "X")] ∧
    "Z" ∈ topological_sort [("X", "none"), ("Z", "X"), ("Y", "X")] ∧
    idxIn "Y" (topological_sort [("X", "none"), ("Z", "X"), ("Y", "X")]) <
      idxIn "Z" (topological_sort [("X", "none"), ("Z", "X"), ("Y", "X")]) :=
  (C3_alphabetical_tiebreak [("X", "none"), ("Z", "X"), ("Y", "X")]
      (by decide)).2.1 "X" "Y" "Z" (by decide) (by decide) (by decide)
    (by decide) (by decide) (by decide)
